import Mathlib

/-!
Verification of the gaphor reactive model-event runtime excerpt.

Shallow embedding of:
* `gaphor/core/eventmanager.py` (`EventManager`: subscribe, unsubscribe, handle)
* `gaphor/core/modeling/listmixins.py` (`matcher`, `querymixin`,
  `issafeiterable`, `recurseproxy`, `recursemixin`)
* the tree projection invariant (modelled from the spec, the implementation
  is not part of the excerpt, only its tests are)
-/

namespace Gaphor

/-! ## Events and handlers -/

/-- An event: an event type (kind) and an identifying payload.
In the source an event is an arbitrary object and its kind is `type(event)`. -/
structure Event where
  kind : Nat
  eid : Nat
deriving DecidableEq, Repr

/-- A handler as passed to `subscribe`/`unsubscribe`: an identity plus the
declared `__event_types__` list (empty list models a missing/empty
declaration). -/
structure Handler where
  hid : Nat
  kinds : List Nat
deriving DecidableEq, Repr

/-- Modelled from the spec: the handler registry of the external
`generic.event.Manager` used by `EventManager` (not part of the excerpted
source).  Per the spec, `subscribe` registers a handler for an event kind,
dispatching one event invokes every handler subscribed to that event's kind
in registration order, and unsubscribing an unregistered handler is a no-op.
Entries are `(event type, handler id)` pairs in registration order. -/
abbrev Registry := List (Nat × Nat)

/-- Handlers subscribed to kind `k`, in registration order. -/
def handlersFor (reg : Registry) (k : Nat) : List Nat :=
  (reg.filter (fun p => p.1 == k)).map (fun p => p.2)

/-- Modelled from the spec: register one handler for one event kind
(`generic.event.Manager.subscribe`); registering twice is idempotent. -/
def regSubscribe (reg : Registry) (hid : Nat) (et : Nat) : Registry :=
  if (et, hid) ∈ reg then reg else reg ++ [(et, hid)]

/-- Modelled from the spec: remove one handler registration for one event
kind (`generic.event.Manager.unsubscribe`); removing an absent registration
is a no-op. -/
def regUnsubscribe (reg : Registry) (hid : Nat) (et : Nat) : Registry :=
  reg.filter (fun p => p ≠ (et, hid))

/-! ## EventManager state (from `eventmanager.py`) -/

/-- The mutable state of `EventManager.__init__`: the registry of the inner
`generic.event.Manager`, the `deque` `_queue` and the `_handling` flag.
The queue is a deque: index 0 is the left end; `pop()` takes the right end,
`extendleft` prepends at the left end. -/
structure EMState where
  registry : Registry
  queue : List Event
  handling : Bool
deriving DecidableEq, Repr

def EMState.init : EMState := ⟨[], [], false⟩

/-- Error raised by `subscribe`/`unsubscribe` when a handler declares no
event types.  In the source it is a plain `Exception("No event types
provided...")`; the spec's taxonomy names it `ConfigurationError`. -/
inductive EMError where
  | configurationError
deriving DecidableEq, Repr

/-- `EventManager.subscribe`: raises if the handler declares no event types,
otherwise registers the handler for each declared type. -/
def subscribe (st : EMState) (h : Handler) : Except EMError EMState :=
  if h.kinds = [] then .error .configurationError
  else .ok { st with
    registry := h.kinds.foldl (fun r et => regSubscribe r h.hid et) st.registry }

/-- `EventManager.unsubscribe`: raises if the handler declares no event
types, otherwise unregisters the handler for each declared type. -/
def unsubscribe (st : EMState) (h : Handler) : Except EMError EMState :=
  if h.kinds = [] then .error .configurationError
  else .ok { st with
    registry := h.kinds.foldl (fun r et => regUnsubscribe r h.hid et) st.registry }

/-! ## Dispatch (`EventManager.handle`)

A handler's visible behaviour during one invocation: the reentrant
`handle(...)` calls it makes (in order, each with the events passed to that
call) and whether it finally raises an exception. -/

structure HandlerAct where
  calls : List (List Event)
  raises : Bool

/-- Assignment of behaviour to each handler id. -/
abbrev Behavior := Nat → Event → HandlerAct

/-- `deque.extendleft(events)`: appendleft each event in turn, so the events
end up left of the old contents in reversed order. -/
def extendleft (events : List Event) (q : List Event) : List Event :=
  events.reverse ++ q

/-- Result of dispatching one event to a list of handlers: the queue after
all reentrant `handle` calls, the invocation log `(handler id, event)`, and
whether some handler raised (aborting the remaining handlers). -/
structure HandlersRes where
  queue : List Event
  inv : List (Nat × Event)
  raised : Bool
deriving DecidableEq, Repr

/-- Dispatch event `e` to the handlers `hs` in order.  Each handler's
reentrant `handle` calls hit the flag-guarded path and only `extendleft`
the queue.  A raising handler stops the remaining handlers (the external
dispatcher loops over handlers without catching). -/
def runHandlers (B : Behavior) (hs : List Nat) (e : Event) (q : List Event) :
    HandlersRes :=
  match hs with
  | [] => ⟨q, [], false⟩
  | h :: rest =>
    let act := B h e
    let q1 := act.calls.foldl (fun acc evs => extendleft evs acc) q
    if act.raises then ⟨q1, [(h, e)], true⟩
    else
      let r := runHandlers B rest e q1
      ⟨r.queue, (h, e) :: r.inv, r.raised⟩

inductive DStatus where
  | done
  | raised
  | fuelOut
deriving DecidableEq, Repr

/-- Result of the drain loop of `handle`: the remaining queue, the dispatch
log (events in dispatch order), the handler invocation log, and how the
loop ended (`raised` models an exception propagating out of a handler;
`fuelOut` is a model artifact for non-terminating handler behaviours). -/
structure DrainRes where
  queue : List Event
  log : List Event
  inv : List (Nat × Event)
  status : DStatus
deriving DecidableEq, Repr

/-- The owner's loop `while queue: self._events.handle(queue.pop())`:
pop the rightmost event and dispatch it, until the queue is empty or a
handler exception propagates. -/
def drain (B : Behavior) (reg : Registry) : Nat → List Event → DrainRes
  | 0, q => if q = [] then ⟨[], [], [], .done⟩ else ⟨q, [], [], .fuelOut⟩
  | fuel + 1, q =>
    match q.getLast? with
    | none => ⟨[], [], [], .done⟩
    | some e =>
      let r1 := runHandlers B (handlersFor reg e.kind) e q.dropLast
      if r1.raised then ⟨r1.queue, [e], r1.inv, .raised⟩
      else
        let r := drain B reg fuel r1.queue
        ⟨r.queue, e :: r.log, r1.inv ++ r.inv, r.status⟩

/-- Result of one `EventManager.handle` call. -/
structure HandleRes where
  state : EMState
  log : List Event
  inv : List (Nat × Event)
  status : DStatus
deriving DecidableEq, Repr

/-- `EventManager.handle`: `extendleft` the events; if a dispatch is in
progress return at once, otherwise become the owner: set the flag, drain
the queue, and clear the flag on every exit path (`try`/`finally`). -/
def handle (B : Behavior) (st : EMState) (events : List Event) (fuel : Nat) :
    HandleRes :=
  let q := extendleft events st.queue
  if st.handling then ⟨{ st with queue := q }, [], [], .done⟩
  else
    let r := drain B st.registry fuel q
    ⟨{ st with queue := r.queue, handling := false }, r.log, r.inv, r.status⟩

/-! ## Spec-side reference model

The spec describes `handle` in terms of a plain FIFO queue: events are
appended at the tail (in the order they are passed) and dispatched from the
head.  These definitions follow the spec's words; the theorems below relate
them to the deque-based code model. -/

/-- Spec-side: dispatch one event to the handlers in order; reentrant
`handle` calls append their events at the FIFO tail. -/
def specRunHandlers (B : Behavior) (hs : List Nat) (e : Event)
    (q : List Event) : HandlersRes :=
  match hs with
  | [] => ⟨q, [], false⟩
  | h :: rest =>
    let act := B h e
    let q1 := act.calls.foldl (fun acc evs => acc ++ evs) q
    if act.raises then ⟨q1, [(h, e)], true⟩
    else
      let r := specRunHandlers B rest e q1
      ⟨r.queue, (h, e) :: r.inv, r.raised⟩

/-- Spec-side drain: repeatedly pop the head of the FIFO and dispatch it. -/
def specDrain (B : Behavior) (reg : Registry) : Nat → List Event → DrainRes
  | 0, q => if q = [] then ⟨[], [], [], .done⟩ else ⟨q, [], [], .fuelOut⟩
  | fuel + 1, q =>
    match q with
    | [] => ⟨[], [], [], .done⟩
    | e :: rest =>
      let r1 := specRunHandlers B (handlersFor reg e.kind) e rest
      if r1.raised then ⟨r1.queue, [e], r1.inv, .raised⟩
      else
        let r := specDrain B reg fuel r1.queue
        ⟨r.queue, e :: r.log, r1.inv ++ r.inv, r.status⟩

/-- The invocation log demanded by the spec: for each dispatched event, each
handler subscribed to its kind, exactly once, in registration order. -/
def expectedInv (reg : Registry) : List Event → List (Nat × Event)
  | [] => []
  | e :: rest => (handlersFor reg e.kind).map (fun h => (h, e)) ++ expectedInv reg rest

/-! ## Equivalence lemmas: the deque code implements the FIFO spec -/

theorem foldl_extendleft_reverse (calls : List (List Event)) :
    ∀ q : List Event,
      (calls.foldl (fun acc evs => extendleft evs acc) q).reverse =
        calls.foldl (fun acc evs => acc ++ evs) q.reverse := by
  induction calls with
  | nil => intro q; rfl
  | cons c cs ih =>
    intro q
    simp only [List.foldl_cons]
    rw [ih (extendleft c q)]
    simp [extendleft]

theorem runHandlers_eq_spec (B : Behavior) (e : Event) :
    ∀ (hs : List Nat) (q : List Event),
      runHandlers B hs e q =
        ⟨(specRunHandlers B hs e q.reverse).queue.reverse,
         (specRunHandlers B hs e q.reverse).inv,
         (specRunHandlers B hs e q.reverse).raised⟩ := by
  intro hs
  induction hs with
  | nil => intro q; simp [runHandlers, specRunHandlers]
  | cons h rest ih =>
    intro q
    cases hra : (B h e).raises with
    | true =>
      simp [runHandlers, specRunHandlers, hra, ← foldl_extendleft_reverse]
    | false =>
      simp [runHandlers, specRunHandlers, hra, ih, foldl_extendleft_reverse]

theorem drain_eq_spec (B : Behavior) (reg : Registry) :
    ∀ (fuel : Nat) (q : List Event),
      drain B reg fuel q =
        ⟨(specDrain B reg fuel q.reverse).queue.reverse,
         (specDrain B reg fuel q.reverse).log,
         (specDrain B reg fuel q.reverse).inv,
         (specDrain B reg fuel q.reverse).status⟩ := by
  intro fuel
  induction fuel with
  | zero =>
    intro q
    by_cases hq : q = []
    · subst hq; simp [drain, specDrain]
    · have hqr : q.reverse ≠ [] := by simpa using hq
      simp [drain, specDrain, hq, hqr]
  | succ fuel ih =>
    intro q
    cases hq : q.reverse with
    | nil =>
      have hq0 : q = [] := by simpa using congrArg List.reverse hq
      subst hq0
      simp [drain, specDrain]
    | cons e rest =>
      have hq0 : q = rest.reverse ++ [e] := by
        have h2 := congrArg List.reverse hq
        simpa using h2
      subst hq0
      cases hra : (specRunHandlers B (handlersFor reg e.kind) e rest).raised with
      | true =>
        simp [drain, specDrain, runHandlers_eq_spec, hra]
      | false =>
        simp [drain, specDrain, runHandlers_eq_spec, hra, ih]

theorem specRunHandlers_not_raised_inv (B : Behavior) (e : Event) :
    ∀ (hs : List Nat) (q : List Event),
      (specRunHandlers B hs e q).raised = false →
      (specRunHandlers B hs e q).inv = hs.map (fun h => (h, e)) := by
  intro hs
  induction hs with
  | nil => intro q _; simp [specRunHandlers]
  | cons h rest ih =>
    intro q hr
    cases hra : (B h e).raises with
    | true => simp [specRunHandlers, hra] at hr
    | false =>
      simp only [specRunHandlers, hra] at hr ⊢
      simp only [Bool.false_eq_true, if_false] at hr ⊢
      simp [ih _ hr]

theorem specDrain_done_inv (B : Behavior) (reg : Registry) :
    ∀ (fuel : Nat) (q : List Event),
      (specDrain B reg fuel q).status = .done →
      (specDrain B reg fuel q).inv = expectedInv reg (specDrain B reg fuel q).log := by
  intro fuel
  induction fuel with
  | zero =>
    intro q hs
    by_cases hq : q = []
    · subst hq; simp [specDrain, expectedInv]
    · simp [specDrain, hq] at hs
  | succ fuel ih =>
    intro q hs
    cases q with
    | nil => simp [specDrain, expectedInv]
    | cons e rest =>
      cases hra : (specRunHandlers B (handlersFor reg e.kind) e rest).raised with
      | true => simp [specDrain, hra] at hs
      | false =>
        have h1 := specRunHandlers_not_raised_inv B e (handlersFor reg e.kind) rest hra
        simp only [specDrain, hra, Bool.false_eq_true, if_false] at hs ⊢
        rw [h1, ih _ hs]
        simp [expectedInv]

/-- Shared lemma: the dispatch log of an owning `handle` call equals the
spec-side FIFO processing of the retained queue followed by the new events. -/
theorem handle_log_spec (B : Behavior) (st : EMState) (events : List Event)
    (fuel : Nat) (hown : st.handling = false) :
    (handle B st events fuel).log =
      (specDrain B st.registry fuel (st.queue.reverse ++ events)).log := by
  simp [handle, hown, drain_eq_spec, extendleft]

/-- Shared lemma: ditto for the handler-invocation log and loop status. -/
theorem handle_inv_spec (B : Behavior) (st : EMState) (events : List Event)
    (fuel : Nat) (hown : st.handling = false) :
    (handle B st events fuel).inv =
      (specDrain B st.registry fuel (st.queue.reverse ++ events)).inv ∧
    (handle B st events fuel).status =
      (specDrain B st.registry fuel (st.queue.reverse ++ events)).status := by
  constructor <;> simp [handle, hown, drain_eq_spec, extendleft]

/-! ## Claim theorems: Event Dispatch Bus -/

/-- C1: For every sequence of `handle` calls, including reentrant calls made
from inside handlers during dispatch, the dispatch order observed by the
code's deque (`extendleft`/`pop`) equals the spec's global FIFO order: the
retained queue first, then the passed events in order, with reentrant
emissions appended at the tail; and when the drain completes, every handler
subscribed to an event's kind is invoked exactly once per dispatched event,
in registration order (`expectedInv`). -/
theorem handle_fifo_exactly_once (B : Behavior) (st : EMState)
    (events : List Event) (fuel : Nat) (hown : st.handling = false) :
    (handle B st events fuel).log =
      (specDrain B st.registry fuel (st.queue.reverse ++ events)).log ∧
    ((handle B st events fuel).status = .done →
      (handle B st events fuel).inv =
        expectedInv st.registry (handle B st events fuel).log) := by
  refine ⟨handle_log_spec B st events fuel hown, ?_⟩
  intro hdone
  have hinv := (handle_inv_spec B st events fuel hown).1
  have hst := (handle_inv_spec B st events fuel hown).2
  rw [hinv, handle_log_spec B st events fuel hown]
  exact specDrain_done_inv B st.registry fuel _ (hst ▸ hdone)

/-- Witness behaviour: event 1's handler reentrantly emits event 4. -/
def wB : Behavior := fun _ e =>
  if e.eid = 1 then ⟨[[⟨0, 4⟩]], false⟩ else ⟨[], false⟩

/-- Witness state: handler 7 subscribed to kind 0, idle bus. -/
def wSt : EMState := ⟨[(0, 7)], [], false⟩

theorem handle_fifo_exactly_once_witness :
    wSt.handling = false ∧
    (handle wB wSt [⟨0, 1⟩] 5).log = [⟨0, 1⟩, ⟨0, 4⟩] ∧
    ((handle wB wSt [⟨0, 1⟩] 5).log =
        (specDrain wB wSt.registry 5 (wSt.queue.reverse ++ [⟨0, 1⟩])).log ∧
      ((handle wB wSt [⟨0, 1⟩] 5).status = .done →
        (handle wB wSt [⟨0, 1⟩] 5).inv =
          expectedInv wSt.registry (handle wB wSt [⟨0, 1⟩] 5).log)) :=
  ⟨rfl, by decide, handle_fifo_exactly_once wB wSt [⟨0, 1⟩] 5 rfl⟩

/-- C2: a `handle` call made while a dispatch is in progress only
`extendleft`s its events (which, in FIFO terms, appends them at the tail of
the queue) and returns at once: it dispatches no event, invokes no handler,
and leaves the flag set. -/
theorem handle_reentrant_appends_only (B : Behavior) (st : EMState)
    (events : List Event) (fuel : Nat) (h : st.handling = true) :
    handle B st events fuel =
      ⟨{ st with queue := extendleft events st.queue }, [], [], .done⟩ ∧
    (extendleft events st.queue).reverse = st.queue.reverse ++ events := by
  constructor
  · simp [handle, h]
  · simp [extendleft]

/-- Witness state for C2: a dispatch is in progress, one event queued. -/
def w2St : EMState := ⟨[(0, 7)], [⟨0, 2⟩], true⟩

theorem handle_reentrant_appends_only_witness :
    w2St.handling = true ∧
    (handle wB w2St [⟨0, 3⟩] 5 =
        ⟨{ w2St with queue := extendleft [⟨0, 3⟩] w2St.queue }, [], [], .done⟩ ∧
      (extendleft [⟨0, 3⟩] w2St.queue).reverse = w2St.queue.reverse ++ [⟨0, 3⟩]) :=
  ⟨rfl, handle_reentrant_appends_only wB w2St [⟨0, 3⟩] 5 rfl⟩

/-- Behaviour for C3/C9 scenarios: handler 1 raises on event 1; every other
invocation is a plain no-op. -/
def c3B : Behavior := fun h e =>
  if h = 1 ∧ e.eid = 1 then ⟨[], true⟩ else ⟨[], false⟩

/-- State for C3/C9 scenarios: handlers 1 and 2 subscribed to kind 0. -/
def c3St : EMState := ⟨[(0, 1), (0, 2)], [], false⟩

/-- C3 counterexample: handlers 1 and 2 are subscribed to kind 0 and
handler 1 raises on event 1.  `handle(e1, e2)` dispatches event 1 only:
handler 2 is never invoked for event 1, the queued event 2 is never popped,
and the exception propagates (`raised`), so a single handler's failure does
halt the drain — contradicting the claim that dispatch continues to all
remaining handlers and all remaining queued events. -/
theorem handler_exception_continues_drain_counterexample :
    (handle c3B c3St [⟨0, 1⟩, ⟨0, 2⟩] 5).log = [⟨0, 1⟩] ∧
    (handle c3B c3St [⟨0, 1⟩, ⟨0, 2⟩] 5).inv = [(1, ⟨0, 1⟩)] ∧
    (handle c3B c3St [⟨0, 1⟩, ⟨0, 2⟩] 5).state.queue = [⟨0, 2⟩] ∧
    (handle c3B c3St [⟨0, 1⟩, ⟨0, 2⟩] 5).status = .raised := by decide

/-- C3 amended: a handler exception aborts the drain at once: the raising
event is the last (indeed only) event this loop iteration dispatches, the
remaining handlers for it are skipped, and the remaining queued events (the
undispatched rest plus any reentrant emissions, in FIFO order) stay in the
queue while the exception propagates. -/
theorem handler_exception_halts_drain (B : Behavior) (reg : Registry)
    (fuel : Nat) (q : List Event) (e : Event) (rest : List Event)
    (hq : q.reverse = e :: rest)
    (hr : (specRunHandlers B (handlersFor reg e.kind) e rest).raised = true) :
    drain B reg (fuel + 1) q =
      ⟨(specRunHandlers B (handlersFor reg e.kind) e rest).queue.reverse,
       [e],
       (specRunHandlers B (handlersFor reg e.kind) e rest).inv,
       .raised⟩ := by
  have hq0 : q = rest.reverse ++ [e] := by
    have h2 := congrArg List.reverse hq
    simpa using h2
  subst hq0
  simp [drain, runHandlers_eq_spec, hr]

theorem handler_exception_halts_drain_witness :
    (([(⟨0, 2⟩ : Event), ⟨0, 1⟩] : List Event).reverse = [⟨0, 1⟩, ⟨0, 2⟩]) ∧
    (specRunHandlers c3B (handlersFor c3St.registry 0) ⟨0, 1⟩ [⟨0, 2⟩]).raised = true ∧
    drain c3B c3St.registry 5 [⟨0, 2⟩, ⟨0, 1⟩] =
      ⟨(specRunHandlers c3B (handlersFor c3St.registry 0) ⟨0, 1⟩ [⟨0, 2⟩]).queue.reverse,
       [⟨0, 1⟩],
       (specRunHandlers c3B (handlersFor c3St.registry 0) ⟨0, 1⟩ [⟨0, 2⟩]).inv,
       .raised⟩ :=
  ⟨by decide, by decide,
   handler_exception_halts_drain c3B c3St.registry 4 [⟨0, 2⟩, ⟨0, 1⟩] ⟨0, 1⟩
     [⟨0, 2⟩] (by decide) (by decide)⟩

/-- C9: whenever no `handle` invocation is active the in-progress flag is
false on every exit path: an owning call always returns with the flag
cleared (the `finally` block), the registry untouched; and whatever events
remain queued (for example after a handler exception aborted the drain) are
retained, so the next `handle` call becomes owner and dispatches them, in
FIFO order, ahead of its own events. -/
theorem handle_clears_flag_and_retains_queue (B : Behavior) (st : EMState)
    (events : List Event) (fuel : Nat) (hown : st.handling = false) :
    (handle B st events fuel).state.handling = false ∧
    (handle B st events fuel).state.registry = st.registry ∧
    (∀ (newEvents : List Event) (fuel2 : Nat),
      (handle B (handle B st events fuel).state newEvents fuel2).log =
        (specDrain B st.registry fuel2
          ((handle B st events fuel).state.queue.reverse ++ newEvents)).log) := by
  have hh : (handle B st events fuel).state.handling = false := by
    simp [handle, hown]
  have hreg : (handle B st events fuel).state.registry = st.registry := by
    simp [handle, hown]
  refine ⟨hh, hreg, ?_⟩
  intro newEvents fuel2
  rw [handle_log_spec B _ newEvents fuel2 hh, hreg]

theorem handle_clears_flag_and_retains_queue_witness :
    c3St.handling = false ∧
    (handle c3B c3St [⟨0, 1⟩, ⟨0, 2⟩] 5).state.handling = false ∧
    (handle c3B c3St [⟨0, 1⟩, ⟨0, 2⟩] 5).state.registry = c3St.registry ∧
    (handle c3B (handle c3B c3St [⟨0, 1⟩, ⟨0, 2⟩] 5).state [⟨0, 3⟩] 5).log =
      (specDrain c3B c3St.registry 5
        ((handle c3B c3St [⟨0, 1⟩, ⟨0, 2⟩] 5).state.queue.reverse ++ [⟨0, 3⟩])).log ∧
    (handle c3B (handle c3B c3St [⟨0, 1⟩, ⟨0, 2⟩] 5).state [⟨0, 3⟩] 5).log =
      [⟨0, 2⟩, ⟨0, 3⟩] :=
  ⟨rfl,
   (handle_clears_flag_and_retains_queue c3B c3St [⟨0, 1⟩, ⟨0, 2⟩] 5 rfl).1,
   (handle_clears_flag_and_retains_queue c3B c3St [⟨0, 1⟩, ⟨0, 2⟩] 5 rfl).2.1,
   (handle_clears_flag_and_retains_queue c3B c3St [⟨0, 1⟩, ⟨0, 2⟩] 5 rfl).2.2 [⟨0, 3⟩] 5,
   by decide⟩

/-! ## Claim C4: subscribe / unsubscribe -/

theorem regSubscribe_mem_mono {x : Nat × Nat} {reg : Registry} (hid et : Nat)
    (hx : x ∈ reg) : x ∈ regSubscribe reg hid et := by
  unfold regSubscribe
  split <;> simp [hx]

theorem regSubscribe_mem_self (reg : Registry) (hid et : Nat) :
    (et, hid) ∈ regSubscribe reg hid et := by
  unfold regSubscribe
  split
  · assumption
  · simp

theorem foldl_regSubscribe_mono (hid : Nat) :
    ∀ (kinds : List Nat) (reg : Registry) (x : Nat × Nat), x ∈ reg →
      x ∈ kinds.foldl (fun r k => regSubscribe r hid k) reg := by
  intro kinds
  induction kinds with
  | nil => intro reg x hx; exact hx
  | cons k rest ih =>
    intro reg x hx
    exact ih (regSubscribe reg hid k) x (regSubscribe_mem_mono hid k hx)

theorem foldl_regSubscribe_mem (hid : Nat) :
    ∀ (kinds : List Nat) (reg : Registry) (et : Nat), et ∈ kinds →
      (et, hid) ∈ kinds.foldl (fun r k => regSubscribe r hid k) reg := by
  intro kinds
  induction kinds with
  | nil => intro reg et h; cases h
  | cons k rest ih =>
    intro reg et h
    rcases List.mem_cons.mp h with h1 | h2
    · subst h1
      exact foldl_regSubscribe_mono hid rest (regSubscribe reg hid et) (et, hid)
        (regSubscribe_mem_self reg hid et)
    · exact ih (regSubscribe reg hid k) et h2

theorem regUnsubscribe_of_not_mem {reg : Registry} {hid et : Nat}
    (h : (et, hid) ∉ reg) : regUnsubscribe reg hid et = reg := by
  unfold regUnsubscribe
  rw [List.filter_eq_self]
  intro p hp
  have hne : p ≠ (et, hid) := fun he => h (he ▸ hp)
  simpa using hne

theorem foldl_regUnsubscribe_id (hid : Nat) :
    ∀ (kinds : List Nat) (reg : Registry), (∀ et, (et, hid) ∉ reg) →
      kinds.foldl (fun r k => regUnsubscribe r hid k) reg = reg := by
  intro kinds
  induction kinds with
  | nil => intro reg _; rfl
  | cons k rest ih =>
    intro reg hno
    simp only [List.foldl_cons]
    rw [regUnsubscribe_of_not_mem (hno k)]
    exact ih reg hno

/-- C4: a handler declaring no event kinds makes both `subscribe` and
`unsubscribe` fail with the configuration error; a handler declaring at
least one kind is registered by `subscribe` for each declared kind; and
unsubscribing a handler that was never registered leaves the state
unchanged (a no-op). -/
theorem subscribe_unsubscribe_config (st : EMState) (h : Handler) :
    (h.kinds = [] →
      subscribe st h = .error .configurationError ∧
      unsubscribe st h = .error .configurationError) ∧
    (h.kinds ≠ [] →
      subscribe st h = .ok { st with
        registry := h.kinds.foldl (fun r et => regSubscribe r h.hid et) st.registry } ∧
      ∀ et ∈ h.kinds, (et, h.hid) ∈
        h.kinds.foldl (fun r et => regSubscribe r h.hid et) st.registry) ∧
    (h.kinds ≠ [] → (∀ et, (et, h.hid) ∉ st.registry) →
      unsubscribe st h = .ok st) := by
  refine ⟨?_, ?_, ?_⟩
  · intro he
    constructor <;> simp [subscribe, unsubscribe, he]
  · intro hne
    refine ⟨by simp [subscribe, hne], ?_⟩
    intro et het
    exact foldl_regSubscribe_mem h.hid h.kinds st.registry et het
  · intro hne hno
    simp only [unsubscribe, hne, if_false]
    rw [foldl_regUnsubscribe_id h.hid h.kinds st.registry hno]

theorem subscribe_unsubscribe_config_witness :
    ((⟨5, []⟩ : Handler).kinds = []) ∧
    (subscribe EMState.init ⟨5, []⟩ = .error .configurationError ∧
      unsubscribe EMState.init ⟨5, []⟩ = .error .configurationError) ∧
    ((⟨6, [0]⟩ : Handler).kinds ≠ []) ∧
    (∀ et, (et, (6 : Nat)) ∉ EMState.init.registry) ∧
    unsubscribe EMState.init ⟨6, [0]⟩ = .ok EMState.init :=
  ⟨rfl,
   (subscribe_unsubscribe_config EMState.init ⟨5, []⟩).1 rfl,
   by decide,
   fun et => by simp [EMState.init],
   (subscribe_unsubscribe_config EMState.init ⟨6, [0]⟩).2.2 (by decide)
     (fun et => by simp [EMState.init])⟩

/-! ## Dynamic objects for `listmixins.py`

Python values as the list mixins see them: element-like objects with named
attributes, strings, integers, and (iterable) lists. -/

inductive Obj where
  | elem (attrs : List (String × Obj))
  | str (s : String)
  | int (n : Int)
  | olist (xs : List Obj)
deriving Repr

def lookupAttr (attrs : List (String × Obj)) (k : String) : Option Obj :=
  match attrs with
  | [] => none
  | (n, v) :: rest => if n = k then some v else lookupAttr rest k

/-- `getattr(o, k, default)` restricted to the model: only element objects
carry named attributes. -/
def getattrO (o : Obj) (k : String) : Option Obj :=
  match o with
  | .elem attrs => lookupAttr attrs k
  | _ => none

/-- `issafeiterable`: iterable but not a string (`iter(obj)` succeeds and
`isinstance(obj, str)` fails; a `TypeError` from `iter` yields False). -/
def issafeiterable : Obj → Bool
  | .olist _ => true
  | _ => false

/-- Iterating an object (`yield from obj`); only lists are iterable here. -/
def iterateObj : Obj → List Obj
  | .olist xs => xs
  | _ => []

/-! ## `matcher` (compiled filter expressions)

The source compiles the expression string once with `compile(...)` (a
malformed string raises before any element is seen) and evaluates it per
element with only `it` bound; `AttributeError`/`NameError` during
evaluation is caught and treated as no-match.  Following the spec's design
note, the compiled form is a small closed expression type: a dotted
attribute path compared to a string literal. -/

inductive QExpr where
  | pathEq (root : String) (path : List String) (lit : String)
deriving DecidableEq, Repr

inductive EvalErr where
  | attributeError
  | nameError
deriving DecidableEq, Repr

def walkPath : Obj → List String → Except EvalErr Obj
  | o, [] => .ok o
  | o, k :: rest =>
    match getattrO o k with
    | none => .error .attributeError
    | some v => walkPath v rest

/-- Python `==` between the resolved value and the string literal: true only
for that very string, false (not an error) for other shapes. -/
def eqLit (v : Obj) (lit : String) : Bool :=
  match v with
  | .str s => s == lit
  | _ => false

/-- Evaluate a compiled expression with `it` bound to the element: a root
name other than `it` is unbound (`NameError`), a missing attribute along
the path is an `AttributeError`. -/
def evalQExpr (e : QExpr) (it : Obj) : Except EvalErr Bool :=
  match e with
  | .pathEq root path lit =>
    if root = "it" then
      match walkPath it path with
      | .error err => .error err
      | .ok v => .ok (eqLit v lit)
    else .error .nameError

/-- The closure `real_matcher`: evaluation errors are caught and yield
False (the element simply does not match). -/
def real_matcher (e : QExpr) (it : Obj) : Bool :=
  match evalQExpr e it with
  | .ok b => b
  | .error _ => false

def isIdentChar (c : Char) : Bool := c.isAlphanum || c == '_'

def spanIdent : List Char → List Char × List Char
  | [] => ([], [])
  | c :: rest =>
    if isIdentChar c then
      match spanIdent rest with
      | (a, b) => (c :: a, b)
    else ([], c :: rest)

def parseDots : Nat → List Char → Option (List String × List Char)
  | 0, _ => none
  | fuel + 1, cs =>
    match cs with
    | '.' :: rest =>
      match spanIdent rest with
      | ([], _) => none
      | (id, rest2) =>
        match parseDots fuel rest2 with
        | none => none
        | some (ids, rest3) => some (String.mk id :: ids, rest3)
    | _ => some ([], cs)

def readLit : List Char → Option (String × List Char)
  | [] => none
  | c :: rest =>
    if c = '"' then some ("", rest)
    else
      match readLit rest with
      | none => none
      | some (l, r) => some (String.mk (c :: l.data), r)

/-- `compile(expr, "<matcher>", "eval")` for the modelled grammar
`ident(.ident)*=="literal"`; any other shape is a syntax error. -/
def parseExpr (s : String) : Option QExpr :=
  match spanIdent s.data with
  | ([], _) => none
  | (root, r1) =>
    match parseDots (s.data.length + 1) r1 with
    | none => none
    | some (path, r2) =>
      match r2 with
      | '=' :: '=' :: '"' :: r3 =>
        match readLit r3 with
        | some (lit, []) => some (.pathEq (String.mk root) path lit)
        | _ => none
      | _ => none

/-- The compile-time failure of `matcher` (the spec's `QuerySyntaxError`;
in the source `compile` raises `SyntaxError`). -/
inductive QuerySyntaxError where
  | syntaxError
deriving DecidableEq, Repr

/-- `matcher(expr)`: compile once, before any element is examined.  A
malformed expression fails fast; otherwise the compiled expression is
applied per element by `real_matcher`. -/
def matcher (expr : String) : Except QuerySyntaxError QExpr :=
  match parseExpr expr with
  | none => .error .syntaxError
  | some e => .ok e

/-! ## `querymixin.__getitem__` -/

inductive PyErr where
  | typeError
  | indexError
  | valueError
  | syntaxError
deriving DecidableEq, Repr

/-- Python list indexing with an integer key: negative indices count from
the end; out of range raises `IndexError`. -/
def pyListGet (xs : List Obj) (i : Int) : Except PyErr Obj :=
  let j := if i < 0 then i + xs.length else i
  if h : 0 ≤ j ∧ j < xs.length then
    .ok (xs.get ⟨j.toNat, by omega⟩)
  else .error .indexError

/-- The keys `querymixin.__getitem__` distinguishes.  An integer is handled
by `list.__getitem__` directly; a string key or a `(string, position)`
tuple raises `TypeError` there and falls through to the matcher branch
(a tuple key is split into the expression and the remainder). -/
inductive QKey where
  | idx (i : Int)
  | expr (s : String)
  | exprIdx (s : String) (i : Int)

inductive QRes where
  | single (o : Obj)
  | many (xs : List Obj)
deriving Repr

/-- `querymixin.__getitem__`: default list behaviour for ordinary keys; for
an expression key, filter into a new container of the same kind; with a
position appended, index into the filtered container. -/
def querymixin_getitem (xs : List Obj) (key : QKey) : Except PyErr QRes :=
  match key with
  | .idx i => (pyListGet xs i).map .single
  | .expr s =>
    match matcher s with
    | .error _ => .error .syntaxError
    | .ok e => .ok (.many (xs.filter (real_matcher e)))
  | .exprIdx s i =>
    match matcher s with
    | .error _ => .error .syntaxError
    | .ok e => (pyListGet (xs.filter (real_matcher e)) i).map .single

/-! ## `recurseproxy` and `recursemixin` -/

structure recurseproxy where
  sequence : List Obj
deriving Repr

/-- Iterating the proxy yields the original sequence. -/
def recurseproxy_iter (p : recurseproxy) : List Obj := p.sequence

/-- The generator `mygetattr` inside `recurseproxy.__getattr__`: per source
element, skip it when the attribute is missing, yield from the value when
it is safely iterable, otherwise yield the value itself. -/
def mygetattr (seq : List Obj) (key : String) : List Obj :=
  match seq with
  | [] => []
  | e :: rest =>
    (match getattrO e key with
     | none => []
     | some obj => if issafeiterable obj then iterateObj obj else [obj]) ++
    mygetattr rest key

/-- `recurseproxy.__getattr__`: a new proxy of the same kind over the new
sequence of the same kind. -/
def recurseproxy_getattr (p : recurseproxy) (key : String) : recurseproxy :=
  ⟨mygetattr p.sequence key⟩

/-- Spec-side description of proxy attribute access: for each source
element in order, read the attribute and skip / flatten one level / append
directly; the results are concatenated in source order. -/
def specProxyAttr (seq : List Obj) (key : String) : List Obj :=
  (seq.map (fun e =>
    match getattrO e key with
    | none => []
    | some v => if issafeiterable v then iterateObj v else [v])).flatten

/-- Keys a Python list's `__getitem__` accepts: an integer or a slice
(`slice(start, stop, step)`, each part optional). -/
inductive RKey where
  | idx (i : Int)
  | slice (start stop step : Option Int)
deriving DecidableEq, Repr

/-- `recursemixin._recursemixin_trigger = slice(None, None, None)`; Python
`==` on slices compares the `(start, stop, step)` triples. -/
def recursemixin_trigger : RKey := .slice none none none

/-- CPython's `slice.indices(length)`: clamp start/stop to the valid range
for the step's direction; a zero step raises `ValueError`. -/
def sliceIndices (start stop step : Option Int) (n : Nat) :
    Except PyErr (Int × Int × Int) :=
  let st := step.getD 1
  if st = 0 then .error .valueError
  else
    let lower : Int := if 0 < st then 0 else -1
    let upper : Int := if 0 < st then (n : Int) else (n : Int) - 1
    let b : Int :=
      match start with
      | none => if 0 < st then 0 else (n : Int) - 1
      | some b0 => if b0 < 0 then max (b0 + (n : Int)) lower else min b0 upper
    let e : Int :=
      match stop with
      | none => if 0 < st then (n : Int) else -1
      | some e0 => if e0 < 0 then max (e0 + (n : Int)) lower else min e0 upper
    .ok (b, e, st)

/-- Walk the arithmetic index sequence of a slice, collecting elements. -/
def sliceCollect (xs : List Obj) : Nat → Int → Int → Int → List Obj
  | 0, _, _, _ => []
  | fuel + 1, i, stop, step =>
    if (0 < step ∧ i < stop) ∨ (step < 0 ∧ stop < i) then
      (match xs.get? i.toNat with
       | some v => [v]
       | none => []) ++ sliceCollect xs fuel (i + step) stop step
    else []

/-- `list.__getitem__` with a slice key. -/
def pyListSlice (xs : List Obj) (start stop step : Option Int) :
    Except PyErr (List Obj) :=
  match sliceIndices start stop step xs.length with
  | .error e => .error e
  | .ok (b, e, st) => .ok (sliceCollect xs (xs.length + 1) b e st)

/-- Result of a Python list's own `__getitem__`: a single element for an
integer key, a new list for a slice key. -/
inductive PyGetRes where
  | item (o : Obj)
  | slice (xs : List Obj)
deriving Repr

def pyList_getitem (xs : List Obj) (key : RKey) : Except PyErr PyGetRes :=
  match key with
  | .idx i => (pyListGet xs i).map .item
  | .slice a b c => (pyListSlice xs a b c).map .slice

/-- Result of `recursemixin.__getitem__`: a recurse proxy for the
whole-sequence trigger, the underlying list's ordinary result otherwise. -/
inductive RecurseGetRes where
  | proxy (p : recurseproxy)
  | plain (r : Except PyErr PyGetRes)
deriving Repr

/-- `recursemixin.__getitem__`: the exact trigger slice returns a proxy;
every other key is delegated to `super().__getitem__`. -/
def recursemixin_getitem (xs : List Obj) (key : RKey) : RecurseGetRes :=
  if key = recursemixin_trigger then .proxy ⟨xs⟩
  else .plain (pyList_getitem xs key)

/-! ## Claim theorems: query and recursion primitives -/

/-- Element named "x". -/
def objX : Obj := .elem [("name", .str "x")]

/-- Element lacking a `name` attribute. -/
def objY : Obj := .elem [("other", .int 1)]

/-- C5: a malformed expression fails fast in `matcher` itself — the compile
step returns the syntax error, producing no per-element predicate, so no
element is ever examined; a compiled expression whose evaluation hits a
missing attribute or an unbound name yields no-match (False) for that
element instead of raising; and filtering `[x, y]` (one element named "x",
one lacking a `name` attribute) with `it.name=="x"` returns exactly `[x]`:
the element without the attribute is silently excluded. -/
theorem matcher_missing_attr_no_match :
    (∀ s : String, parseExpr s = none → matcher s = .error .syntaxError) ∧
    (∀ (e : QExpr) (it : Obj) (err : EvalErr),
      evalQExpr e it = .error err → real_matcher e it = false) ∧
    matcher "it.name==" = .error .syntaxError ∧
    matcher "it.name==\"x\"" = .ok (.pathEq "it" ["name"] "x") ∧
    evalQExpr (.pathEq "it" ["name"] "x") objY = .error .attributeError ∧
    evalQExpr (.pathEq "name" [] "x") objX = .error .nameError ∧
    querymixin_getitem [objX, objY] (.expr "it.name==\"x\"") =
      .ok (.many [objX]) := by
  refine ⟨?_, ?_, ?_, ?_, ?_, ?_, ?_⟩
  · intro s hp
    simp [matcher, hp]
  · intro e it err he
    simp [real_matcher, he]
  · rfl
  · rfl
  · rfl
  · rfl
  · rfl

theorem matcher_missing_attr_no_match_witness :
    parseExpr "it..name" = none ∧
    matcher "it..name" = .error .syntaxError ∧
    evalQExpr (.pathEq "it" ["name"] "x") objY = .error .attributeError ∧
    real_matcher (.pathEq "it" ["name"] "x") objY = false :=
  ⟨rfl,
   matcher_missing_attr_no_match.1 "it..name" rfl,
   rfl,
   matcher_missing_attr_no_match.2.1 (.pathEq "it" ["name"] "x") objY
     .attributeError rfl⟩

/-- C6: an expression key alone yields a new container of the same kind
holding exactly the matching elements in their original order (an
order-preserving sublist of the collection, membership characterised by the
matcher); an expression key plus a position yields the single element at
that position within the filtered result (ordinary list indexing applied to
it); an ordinary integer key keeps the list's default behaviour. -/
theorem querymixin_getitem_spec (xs : List Obj) (s : String) (e : QExpr)
    (i : Int) (hc : matcher s = .ok e) :
    querymixin_getitem xs (.expr s) = .ok (.many (xs.filter (real_matcher e))) ∧
    (xs.filter (real_matcher e)).Sublist xs ∧
    (∀ o, o ∈ xs.filter (real_matcher e) ↔ o ∈ xs ∧ real_matcher e o = true) ∧
    querymixin_getitem xs (.exprIdx s i) =
      (pyListGet (xs.filter (real_matcher e)) i).map QRes.single ∧
    querymixin_getitem xs (.idx i) = (pyListGet xs i).map QRes.single := by
  refine ⟨?_, List.filter_sublist xs, ?_, ?_, rfl⟩
  · simp [querymixin_getitem, hc]
  · intro o
    simp [List.mem_filter]
  · simp [querymixin_getitem, hc]

/-- Element named "one". -/
def objOne : Obj := .elem [("name", .str "one")]

/-- Element named "two". -/
def objTwo : Obj := .elem [("name", .str "two")]

theorem querymixin_getitem_spec_witness :
    matcher "it.name==\"two\"" = .ok (.pathEq "it" ["name"] "two") ∧
    querymixin_getitem [objOne, objTwo] (.expr "it.name==\"two\"") =
      .ok (.many ([objOne, objTwo].filter
        (real_matcher (.pathEq "it" ["name"] "two")))) ∧
    querymixin_getitem [objOne, objTwo] (.exprIdx "it.name==\"two\"" 0) =
      (pyListGet ([objOne, objTwo].filter
        (real_matcher (.pathEq "it" ["name"] "two"))) 0).map QRes.single ∧
    querymixin_getitem [objOne, objTwo] (.idx 1) =
      (pyListGet [objOne, objTwo] 1).map QRes.single :=
  ⟨rfl,
   (querymixin_getitem_spec [objOne, objTwo] "it.name==\"two\""
     (.pathEq "it" ["name"] "two") 0 rfl).1,
   (querymixin_getitem_spec [objOne, objTwo] "it.name==\"two\""
     (.pathEq "it" ["name"] "two") 0 rfl).2.2.2.1,
   (querymixin_getitem_spec [objOne, objTwo] "it.name==\"two\""
     (.pathEq "it" ["name"] "two") 1 rfl).2.2.2.2⟩

/-- Shared lemma: the generator of `recurseproxy.__getattr__` computes the
spec-side skip / flatten-one-level / append description. -/
theorem mygetattr_eq_spec (key : String) :
    ∀ seq : List Obj, mygetattr seq key = specProxyAttr seq key := by
  intro seq
  induction seq with
  | nil => rfl
  | cons e rest ih =>
    simp only [mygetattr, specProxyAttr, List.map_cons, List.flatten_cons] at ih ⊢
    rw [ih]

/-- Child element A. -/
def objA : Obj := .elem [("name", .str "A")]

/-- Child element B. -/
def objB : Obj := .elem [("name", .str "B")]

/-- Parent with children `[A, B]`. -/
def objP : Obj := .elem [("children", .olist [objA, objB])]

/-- Parent with no children (empty `children` list). -/
def objQ : Obj := .elem [("children", .olist [])]

/-- Root whose children are `[P, Q]`. -/
def objRoot : Obj := .elem [("children", .olist [objP, objQ])]

/-- C7: iterating the proxy yields the original elements; accessing a named
attribute yields another proxy (so attribute access chains) over the
sequence built per source element by skipping a missing attribute,
flattening a safely-iterable value one level, and appending any other value
directly — exactly the spec-side description; concretely, `.children` over
`[P(children=[A,B]), Q(children=[])]` yields `[A, B]` (Q contributes
nothing, without error), and chaining `.children` twice from the root
yields the grandchildren. -/
theorem recurseproxy_getattr_flattens (key : String) :
    (∀ seq : List Obj, recurseproxy_iter ⟨seq⟩ = seq) ∧
    (∀ seq : List Obj, recurseproxy_getattr ⟨seq⟩ key = ⟨mygetattr seq key⟩) ∧
    (∀ seq : List Obj, mygetattr seq key = specProxyAttr seq key) ∧
    (∀ (e : Obj) (rest : List Obj), getattrO e key = none →
      mygetattr (e :: rest) key = mygetattr rest key) ∧
    (∀ (e : Obj) (rest xs : List Obj), getattrO e key = some (.olist xs) →
      mygetattr (e :: rest) key = xs ++ mygetattr rest key) ∧
    (∀ (e : Obj) (rest : List Obj) (v : Obj), getattrO e key = some v →
      issafeiterable v = false →
      mygetattr (e :: rest) key = v :: mygetattr rest key) ∧
    recurseproxy_iter (recurseproxy_getattr ⟨[objP, objQ]⟩ "children") =
      [objA, objB] ∧
    recurseproxy_iter (recurseproxy_getattr
      (recurseproxy_getattr ⟨[objRoot]⟩ "children") "children") =
      [objA, objB] := by
  refine ⟨fun seq => rfl, fun seq => rfl, mygetattr_eq_spec key, ?_, ?_, ?_,
    rfl, rfl⟩
  · intro e rest hnone
    simp [mygetattr, hnone]
  · intro e rest xs hsome
    simp [mygetattr, hsome, issafeiterable, iterateObj]
  · intro e rest v hsome hni
    simp [mygetattr, hsome, hni]

theorem recurseproxy_getattr_flattens_witness :
    getattrO objQ "name" = none ∧
    mygetattr [objQ, objA] "name" = mygetattr [objA] "name" ∧
    recurseproxy_iter (recurseproxy_getattr ⟨[objP, objQ]⟩ "children") =
      [objA, objB] :=
  ⟨rfl,
   (recurseproxy_getattr_flattens "name").2.2.2.1 objQ [objA] rfl,
   (recurseproxy_getattr_flattens "name").2.2.2.2.2.2.1⟩

/-- C10: only the exact whole-sequence slice (no start, stop or step)
returns a recurse proxy; every other key — integer indices and partial
slices such as `[0:2]` included — is delegated unchanged to the underlying
list's own `__getitem__` and yields its ordinary result, never a proxy. -/
theorem recursemixin_getitem_trigger_only (xs : List Obj) :
    recursemixin_getitem xs recursemixin_trigger = .proxy ⟨xs⟩ ∧
    (∀ key : RKey, key ≠ recursemixin_trigger →
      recursemixin_getitem xs key = .plain (pyList_getitem xs key)) ∧
    (∀ i : Int, recursemixin_getitem xs (.idx i) =
      .plain ((pyListGet xs i).map PyGetRes.item)) ∧
    (∀ a b c : Option Int, RKey.slice a b c ≠ recursemixin_trigger →
      recursemixin_getitem xs (.slice a b c) =
        .plain ((pyListSlice xs a b c).map PyGetRes.slice)) ∧
    recursemixin_getitem [objA, objB, objQ] (.slice (some 0) (some 2) none) =
      .plain (.ok (.slice [objA, objB])) := by
  refine ⟨rfl, ?_, ?_, ?_, rfl⟩
  · intro key hk
    simp [recursemixin_getitem, hk]
  · intro i
    simp [recursemixin_getitem, recursemixin_trigger, pyList_getitem]
  · intro a b c h
    simp [recursemixin_getitem, h, pyList_getitem]

theorem recursemixin_getitem_trigger_only_witness :
    (RKey.slice (some 0) (some 2) none ≠ recursemixin_trigger) ∧
    recursemixin_getitem [objA] (.slice (some 0) (some 2) none) =
      .plain (pyList_getitem [objA] (.slice (some 0) (some 2) none)) ∧
    recursemixin_getitem [objA] recursemixin_trigger = .proxy ⟨[objA]⟩ :=
  ⟨by decide,
   (recursemixin_getitem_trigger_only [objA]).2.1 (.slice (some 0) (some 2) none)
     (by decide),
   (recursemixin_getitem_trigger_only [objA]).1⟩

/-! ## Tree Projection child lists (C8)

Modelled from the spec: the Tree Projection implementation is not part of
the excerpted source (only its tests are).  Per the spec (§3, §4.3), a tree
node has a child list iff it currently has at least one qualifying child
element; the list is destroyed (not merely emptied) when the last child is
removed and recreated on first child insertion; a reparent is a removal
from the old parent's list plus an insertion into the new parent's list.

Elements are ids with an optional owner; the projection's state keeps the
per-node child lists (`branches`), maintained incrementally by the
mutation operations. -/

structure TreeState where
  elements : List (Nat × Option Nat)
  branches : List (Nat × List Nat)
deriving DecidableEq, Repr

def TreeState.init : TreeState := ⟨[], []⟩

/-- The qualifying child elements of node `n` (elements owned by `n`), in
element order. -/
def childrenOfE (els : List (Nat × Option Nat)) (n : Nat) : List Nat :=
  (els.filter (fun p => p.2 = some n)).map (fun p => p.1)

def childrenOf (st : TreeState) (n : Nat) : List Nat :=
  childrenOfE st.elements n

def lookupBr (brs : List (Nat × List Nat)) (n : Nat) : Option (List Nat) :=
  match brs with
  | [] => none
  | (k, l) :: rest => if k = n then some l else lookupBr rest n

/-- `child_list(node)`: the node's child list, or none. -/
def child_list (st : TreeState) (n : Nat) : Option (List Nat) :=
  lookupBr st.branches n

def updateBr (brs : List (Nat × List Nat)) (n : Nat) (l : List Nat) :
    List (Nat × List Nat) :=
  match brs with
  | [] => []
  | (k, l0) :: rest =>
    if k = n then (k, l) :: rest else (k, l0) :: updateBr rest n l

def eraseBr (brs : List (Nat × List Nat)) (n : Nat) : List (Nat × List Nat) :=
  match brs with
  | [] => []
  | (k, l0) :: rest => if k = n then rest else (k, l0) :: eraseBr rest n

/-- Modelled from the spec: insert a child at the tail of a node's child
list, creating the list on the first child insertion. -/
def addChildBr (brs : List (Nat × List Nat)) (p c : Nat) :
    List (Nat × List Nat) :=
  match lookupBr brs p with
  | some l => updateBr brs p (l ++ [c])
  | none => brs ++ [(p, [c])]

/-- Modelled from the spec: remove a child from a node's child list,
destroying (not merely emptying) the list when its last child goes. -/
def removeChildBr (brs : List (Nat × List Nat)) (p c : Nat) :
    List (Nat × List Nat) :=
  match lookupBr brs p with
  | some l =>
    if l.erase c = [] then eraseBr brs p else updateBr brs p (l.erase c)
  | none => brs

def lookupEl (els : List (Nat × Option Nat)) (n : Nat) : Option (Option Nat) :=
  match els with
  | [] => none
  | (k, o) :: rest => if k = n then some o else lookupEl rest n

/-- Modelled from the spec: create an element with an optional owner; a new
child is inserted into its owner's child list. -/
def createElement (st : TreeState) (id : Nat) (par : Option Nat) : TreeState :=
  ⟨st.elements ++ [(id, par)],
   match par with
   | some p => addChildBr st.branches p id
   | none => st.branches⟩

/-- Modelled from the spec: unlink one element (recursive unlink is a
children-first sequence of these); the element leaves its owner's child
list. -/
def removeElement (st : TreeState) (id : Nat) : TreeState :=
  match lookupEl st.elements id with
  | none => st
  | some par =>
    ⟨st.elements.filter (fun p => p.1 ≠ id),
     match par with
     | some p => removeChildBr st.branches p id
     | none => st.branches⟩

/-- Modelled from the spec: reparent an element — a removal from the old
parent's child list plus an insertion into the new parent's (or none's)
child list. -/
def setParent (st : TreeState) (id : Nat) (newPar : Option Nat) : TreeState :=
  match lookupEl st.elements id with
  | none => st
  | some _ => createElement (removeElement st id) id newPar

/-- The projection's invariant: unique element ids, unique branch keys, and
every node's stored child list is exactly its current nonempty children
list — absent whenever the node has no qualifying children. -/
def TreeInv (st : TreeState) : Prop :=
  (st.elements.map (fun p => p.1)).Nodup ∧
  (st.branches.map (fun p => p.1)).Nodup ∧
  ∀ n, child_list st n =
    if childrenOf st n = [] then none else some (childrenOf st n)

theorem lookupBr_updateBr_self (brs : List (Nat × List Nat)) (n : Nat)
    (l : List Nat) :
    lookupBr (updateBr brs n l) n = (lookupBr brs n).map (fun _ => l) := by
  induction brs with
  | nil => rfl
  | cons b rest ih =>
    obtain ⟨k, l0⟩ := b
    by_cases hk : k = n <;> simp [updateBr, lookupBr, hk, ih]

theorem lookupBr_updateBr_other (brs : List (Nat × List Nat)) (n m : Nat)
    (l : List Nat) (h : m ≠ n) :
    lookupBr (updateBr brs n l) m = lookupBr brs m := by
  induction brs with
  | nil => rfl
  | cons b rest ih =>
    obtain ⟨k, l0⟩ := b
    by_cases hk : k = n
    · have hkm : ¬ k = m := fun he => h (he ▸ hk)
      simp [updateBr, lookupBr, hk, hkm, Ne.symm h]
    · by_cases hm : k = m <;> simp [updateBr, lookupBr, hk, hm, ih, h]

theorem updateBr_keys (brs : List (Nat × List Nat)) (n : Nat) (l : List Nat) :
    (updateBr brs n l).map (fun p => p.1) = brs.map (fun p => p.1) := by
  induction brs with
  | nil => rfl
  | cons b rest ih =>
    obtain ⟨k, l0⟩ := b
    by_cases hk : k = n <;> simp [updateBr, hk, ih]

theorem lookupBr_eraseBr_other (brs : List (Nat × List Nat)) (n m : Nat)
    (h : m ≠ n) :
    lookupBr (eraseBr brs n) m = lookupBr brs m := by
  induction brs with
  | nil => rfl
  | cons b rest ih =>
    obtain ⟨k, l0⟩ := b
    by_cases hk : k = n
    · have hkm : ¬ k = m := fun he => h (he ▸ hk)
      simp [eraseBr, lookupBr, hk, hkm, Ne.symm h]
    · by_cases hm : k = m <;> simp [eraseBr, lookupBr, hk, hm, ih, h]

theorem eraseBr_keys_sublist (brs : List (Nat × List Nat)) (n : Nat) :
    ((eraseBr brs n).map (fun p => p.1)).Sublist (brs.map (fun p => p.1)) := by
  induction brs with
  | nil => simp [eraseBr]
  | cons b rest ih =>
    obtain ⟨k, l0⟩ := b
    by_cases hk : k = n
    · simp only [eraseBr, hk, if_true, List.map_cons]
      exact List.sublist_cons_self _ _
    · simp only [eraseBr, hk, if_false, List.map_cons]
      exact List.Sublist.cons₂ _ ih

theorem lookupBr_none_iff (brs : List (Nat × List Nat)) (n : Nat) :
    lookupBr brs n = none ↔ n ∉ brs.map (fun p => p.1) := by
  induction brs with
  | nil => simp [lookupBr]
  | cons b rest ih =>
    obtain ⟨k, l0⟩ := b
    by_cases hk : k = n
    · simp [lookupBr, hk]
    · simp [lookupBr, hk, Ne.symm hk, ih]

theorem lookupBr_eraseBr_self (brs : List (Nat × List Nat)) (n : Nat)
    (hnd : (brs.map (fun p => p.1)).Nodup) :
    lookupBr (eraseBr brs n) n = none := by
  induction brs with
  | nil => rfl
  | cons b rest ih =>
    obtain ⟨k, l0⟩ := b
    simp only [List.map_cons, List.nodup_cons] at hnd
    by_cases hk : k = n
    · simp only [eraseBr, hk, if_true]
      exact (lookupBr_none_iff rest n).mpr (hk ▸ hnd.1)
    · simp [eraseBr, lookupBr, hk, ih hnd.2]

theorem lookupBr_append (brs brs2 : List (Nat × List Nat)) (m : Nat) :
    lookupBr (brs ++ brs2) m =
      match lookupBr brs m with
      | some l => some l
      | none => lookupBr brs2 m := by
  induction brs with
  | nil => simp [lookupBr]
  | cons b rest ih =>
    obtain ⟨k, l0⟩ := b
    by_cases hk : k = m <;> simp [lookupBr, hk, ih]

theorem lookupBr_addChildBr_self (brs : List (Nat × List Nat)) (p c : Nat) :
    lookupBr (addChildBr brs p c) p =
      some (((lookupBr brs p).getD []) ++ [c]) := by
  unfold addChildBr
  cases hl : lookupBr brs p with
  | some l => simp [lookupBr_updateBr_self, hl]
  | none => rw [lookupBr_append]; simp [hl, lookupBr]

theorem lookupBr_addChildBr_other (brs : List (Nat × List Nat)) (p c m : Nat)
    (h : m ≠ p) :
    lookupBr (addChildBr brs p c) m = lookupBr brs m := by
  unfold addChildBr
  cases hl : lookupBr brs p with
  | some l => exact lookupBr_updateBr_other brs p m _ h
  | none =>
    rw [lookupBr_append]
    cases h2 : lookupBr brs m with
    | some l2 => simp
    | none => simp [lookupBr, Ne.symm h]

theorem addChildBr_keys_nodup (brs : List (Nat × List Nat)) (p c : Nat)
    (hnd : (brs.map (fun q => q.1)).Nodup) :
    ((addChildBr brs p c).map (fun q => q.1)).Nodup := by
  unfold addChildBr
  cases hl : lookupBr brs p with
  | some l => rw [updateBr_keys]; exact hnd
  | none =>
    have hp : p ∉ brs.map (fun q => q.1) := (lookupBr_none_iff brs p).mp hl
    simp [List.map_append, List.nodup_append, hnd, hp]

theorem lookupBr_removeChildBr_self (brs : List (Nat × List Nat)) (p c : Nat)
    (hnd : (brs.map (fun q => q.1)).Nodup) :
    lookupBr (removeChildBr brs p c) p =
      match lookupBr brs p with
      | none => none
      | some l => if l.erase c = [] then none else some (l.erase c) := by
  unfold removeChildBr
  cases hl : lookupBr brs p with
  | none => simp [hl]
  | some l =>
    by_cases he : l.erase c = []
    · simp [he, lookupBr_eraseBr_self brs p hnd]
    · simp [he, lookupBr_updateBr_self, hl]

theorem lookupBr_removeChildBr_other (brs : List (Nat × List Nat)) (p c m : Nat)
    (h : m ≠ p) :
    lookupBr (removeChildBr brs p c) m = lookupBr brs m := by
  unfold removeChildBr
  cases hl : lookupBr brs p with
  | none => rfl
  | some l =>
    by_cases he : l.erase c = []
    · simp [he, lookupBr_eraseBr_other brs p m h]
    · simp [he, lookupBr_updateBr_other brs p m _ h]

theorem removeChildBr_keys_nodup (brs : List (Nat × List Nat)) (p c : Nat)
    (hnd : (brs.map (fun q => q.1)).Nodup) :
    ((removeChildBr brs p c).map (fun q => q.1)).Nodup := by
  unfold removeChildBr
  cases hl : lookupBr brs p with
  | none => exact hnd
  | some l =>
    by_cases he : l.erase c = []
    · simp only [he, if_true]
      exact hnd.sublist (eraseBr_keys_sublist brs p)
    · simp only [he, if_false]
      rw [updateBr_keys]
      exact hnd

theorem lookupEl_none_iff (els : List (Nat × Option Nat)) (n : Nat) :
    lookupEl els n = none ↔ n ∉ els.map (fun p => p.1) := by
  induction els with
  | nil => simp [lookupEl]
  | cons b rest ih =>
    obtain ⟨k, o⟩ := b
    by_cases hk : k = n
    · simp [lookupEl, hk]
    · simp [lookupEl, hk, Ne.symm hk, ih]

theorem lookupEl_some_mem (els : List (Nat × Option Nat)) (n : Nat)
    (o : Option Nat) (h : lookupEl els n = some o) : (n, o) ∈ els := by
  induction els with
  | nil => simp [lookupEl] at h
  | cons b rest ih =>
    obtain ⟨k, o0⟩ := b
    by_cases hk : k = n
    · subst hk
      simp only [lookupEl, if_true] at h
      simp only [Option.some.injEq] at h
      subst h
      exact List.mem_cons_self _ _
    · simp only [lookupEl, hk, if_false] at h
      exact List.mem_cons_of_mem _ (ih h)

theorem owner_unique (els : List (Nat × Option Nat)) (n : Nat)
    (o o' : Option Nat)
    (hnd : (els.map (fun p => p.1)).Nodup)
    (h : lookupEl els n = some o) (h2 : (n, o') ∈ els) : o' = o := by
  induction els with
  | nil => simp at h2
  | cons b rest ih =>
    obtain ⟨k, o0⟩ := b
    simp only [List.map_cons, List.nodup_cons] at hnd
    by_cases hk : k = n
    · subst hk
      simp only [lookupEl, if_true, Option.some.injEq] at h
      subst h
      rcases List.mem_cons.mp h2 with he | hm
    -- (n, o') = (k, o0)
      · exact (Prod.mk.injEq _ _ _ _ ▸ he).2
      · have : k ∈ rest.map (fun p => p.1) :=
          List.mem_map.mpr ⟨(k, o'), hm, rfl⟩
        exact absurd this hnd.1
    · simp only [lookupEl, hk, if_false] at h
      rcases List.mem_cons.mp h2 with he | hm
      · have : n = k := (Prod.mk.injEq _ _ _ _ ▸ he).1
        exact absurd this.symm hk
      · exact ih hnd.2 h hm

theorem childrenOfE_cons (a : Nat) (o : Option Nat)
    (rest : List (Nat × Option Nat)) (n : Nat) :
    childrenOfE ((a, o) :: rest) n =
      (if o = some n then [a] else []) ++ childrenOfE rest n := by
  unfold childrenOfE
  by_cases h : o = some n <;> simp [List.filter_cons, h]

theorem childrenOfE_append_single (els : List (Nat × Option Nat)) (id : Nat)
    (par : Option Nat) (n : Nat) :
    childrenOfE (els ++ [(id, par)]) n =
      childrenOfE els n ++ (if par = some n then [id] else []) := by
  unfold childrenOfE
  rw [List.filter_append, List.map_append]
  by_cases hp : par = some n <;> simp [hp, List.filter_cons]

theorem childrenOfE_filter_ne (els : List (Nat × Option Nat)) (id n : Nat) :
    childrenOfE (els.filter (fun p => p.1 ≠ id)) n =
      (childrenOfE els n).filter (fun c => c ≠ id) := by
  induction els with
  | nil => rfl
  | cons p rest ih =>
    obtain ⟨a, o⟩ := p
    simp only [decide_not] at ih
    by_cases h1 : a = id
    · subst h1
      by_cases h2 : o = some n <;>
        simp [List.filter_cons, childrenOfE_cons, h2, ih, decide_not]
    · by_cases h2 : o = some n <;>
        simp [List.filter_cons, childrenOfE_cons, h1, h2, ih, decide_not]

theorem mem_childrenOfE (els : List (Nat × Option Nat)) (n c : Nat) :
    c ∈ childrenOfE els n ↔ (c, some n) ∈ els := by
  unfold childrenOfE
  simp only [List.mem_map, List.mem_filter]
  constructor
  · rintro ⟨p, ⟨hp, hp2⟩, hp1⟩
    obtain ⟨x, y⟩ := p
    simp only at hp1
    simp only [decide_eq_true_eq] at hp2
    subst hp1; subst hp2
    exact hp
  · intro h
    exact ⟨(c, some n), ⟨h, by simp⟩, rfl⟩

theorem childrenOfE_nodup (els : List (Nat × Option Nat)) (n : Nat)
    (hnd : (els.map (fun p => p.1)).Nodup) : (childrenOfE els n).Nodup := by
  unfold childrenOfE
  exact hnd.sublist (List.Sublist.map _ (List.filter_sublist els))

theorem filter_ne_of_not_mem (l : List Nat) (id : Nat) (h : id ∉ l) :
    l.filter (fun c => c ≠ id) = l := by
  rw [List.filter_eq_self]
  intro a ha
  have hne : a ≠ id := fun he => h (he ▸ ha)
  simpa using hne

theorem nodup_erase_eq_filter_ne (l : List Nat) (a : Nat) (d : l.Nodup) :
    l.erase a = l.filter (fun c => c ≠ a) := by
  rw [List.Nodup.erase_eq_filter d a]
  apply List.filter_congr
  intro x _
  by_cases hx : x = a <;> simp [hx]

theorem createElement_children (st : TreeState) (id : Nat) (par : Option Nat)
    (n : Nat) :
    childrenOf (createElement st id par) n =
      childrenOf st n ++ (if par = some n then [id] else []) := by
  unfold childrenOf createElement
  exact childrenOfE_append_single st.elements id par n

theorem createElement_inv (st : TreeState) (id : Nat) (par : Option Nat)
    (hinv : TreeInv st) (hfresh : lookupEl st.elements id = none) :
    TreeInv (createElement st id par) := by
  obtain ⟨hels, hbrs, hchar⟩ := hinv
  have hidnot : id ∉ st.elements.map (fun p => p.1) :=
    (lookupEl_none_iff _ _).mp hfresh
  refine ⟨?_, ?_, ?_⟩
  · unfold createElement
    simp [List.map_append, List.nodup_append, hels, hidnot]
  · unfold createElement
    cases par with
    | none => exact hbrs
    | some p => exact addChildBr_keys_nodup st.branches p id hbrs
  · intro n
    have hch := createElement_children st id par n
    rw [hch]
    cases par with
    | none =>
      have hcl : child_list (createElement st id none) n = child_list st n := rfl
      rw [hcl, hchar n]
      simp
    | some p =>
      by_cases hn : n = p
      · subst hn
        have hcl : child_list (createElement st id (some n)) n =
            lookupBr (addChildBr st.branches n id) n := rfl
        rw [hcl, lookupBr_addChildBr_self]
        have hb : lookupBr st.branches n =
            if childrenOf st n = [] then none else some (childrenOf st n) :=
          hchar n
        rw [hb]
        by_cases hc : childrenOf st n = [] <;> simp [hc]
      · have hcl : child_list (createElement st id (some p)) n =
            lookupBr st.branches n :=
          lookupBr_addChildBr_other st.branches p id n hn
        rw [hcl]
        have hb : lookupBr st.branches n =
            if childrenOf st n = [] then none else some (childrenOf st n) :=
          hchar n
        rw [hb]
        simp [Ne.symm hn]

theorem removeElement_children (st : TreeState) (id : Nat)
    (par : Option Nat) (hl : lookupEl st.elements id = some par) (n : Nat) :
    childrenOf (removeElement st id) n =
      (childrenOf st n).filter (fun c => c ≠ id) := by
  unfold childrenOf removeElement
  rw [hl]
  exact childrenOfE_filter_ne st.elements id n

theorem not_child_of_other (st : TreeState) (id : Nat) (par : Option Nat)
    (hels : (st.elements.map (fun p => p.1)).Nodup)
    (hl : lookupEl st.elements id = some par) (n : Nat)
    (hn : par ≠ some n) : id ∉ childrenOf st n := by
  intro hmem
  have h2 := (mem_childrenOfE st.elements n id).mp hmem
  have h3 := owner_unique st.elements id par (some n) hels hl h2
  exact hn h3.symm

theorem removeElement_inv (st : TreeState) (id : Nat) (hinv : TreeInv st) :
    TreeInv (removeElement st id) := by
  obtain ⟨hels, hbrs, hchar⟩ := hinv
  cases hl : lookupEl st.elements id with
  | none =>
    unfold removeElement
    rw [hl]
    exact ⟨hels, hbrs, hchar⟩
  | some par =>
    have hch := removeElement_children st id par hl
    refine ⟨?_, ?_, ?_⟩
    · unfold removeElement
      rw [hl]
      exact hels.sublist (List.Sublist.map _ (List.filter_sublist _))
    · unfold removeElement
      rw [hl]
      cases par with
      | none => exact hbrs
      | some p => exact removeChildBr_keys_nodup st.branches p id hbrs
    · intro n
      rw [hch n]
      cases par with
      | none =>
        have hnot : id ∉ childrenOf st n :=
          not_child_of_other st id none hels hl n (by simp)
        have hcl : child_list (removeElement st id) n = child_list st n := by
          unfold removeElement child_list
          rw [hl]
        rw [hcl, filter_ne_of_not_mem _ _ hnot, hchar n]
      | some p =>
        by_cases hn : n = p
        · subst hn
          have hcl : child_list (removeElement st id) n =
              lookupBr (removeChildBr st.branches n id) n := by
            unfold removeElement child_list
            rw [hl]
          rw [hcl, lookupBr_removeChildBr_self _ _ _ hbrs]
          have hb : lookupBr st.branches n =
              if childrenOf st n = [] then none else some (childrenOf st n) :=
            hchar n
          rw [hb]
          by_cases hc : childrenOf st n = []
          · simp [hc]
          · simp only [hc, if_false]
            rw [nodup_erase_eq_filter_ne (childrenOf st n) id
              (by exact childrenOfE_nodup _ _ hels)]
        · have hcl : child_list (removeElement st id) n =
              child_list st n := by
            unfold removeElement child_list
            rw [hl]
            exact lookupBr_removeChildBr_other _ _ _ _ hn
          have hnot : id ∉ childrenOf st n :=
            not_child_of_other st id (some p) hels hl n (by simp [Ne.symm hn])
          rw [hcl, filter_ne_of_not_mem _ _ hnot, hchar n]

theorem setParent_inv (st : TreeState) (id : Nat) (newPar : Option Nat)
    (hinv : TreeInv st) : TreeInv (setParent st id newPar) := by
  unfold setParent
  cases hl : lookupEl st.elements id with
  | none => exact hinv
  | some oldPar =>
    have h1 := removeElement_inv st id hinv
    have hfresh : lookupEl (removeElement st id).elements id = none := by
      unfold removeElement
      rw [hl]
      rw [lookupEl_none_iff]
      simp [List.mem_map, List.mem_filter]
    exact createElement_inv _ id newPar h1 hfresh

theorem lookupEl_of_child (st : TreeState) (id p : Nat)
    (hels : (st.elements.map (fun q => q.1)).Nodup)
    (hmem : id ∈ childrenOf st p) :
    lookupEl st.elements id = some (some p) := by
  have h2 := (mem_childrenOfE st.elements p id).mp hmem
  cases hl : lookupEl st.elements id with
  | none =>
    have h3 := (lookupEl_none_iff _ _).mp hl
    exact absurd (List.mem_map.mpr ⟨(id, some p), h2, rfl⟩) h3
  | some o =>
    have h4 := owner_unique st.elements id o (some p) hels hl h2
    exact congrArg some h4.symm

/-- C8: starting from the empty projection, the child-list state is an
invariant of every mutation (element creation, unlink, reparenting): a node
has a stored child list exactly when it has at least one qualifying child
element, and the stored list is that (nonempty) children list.  In
particular, removing — or reparenting away — a node's last child makes
`child_list` return none on the next call (the list is destroyed, not
merely emptied), and the first child insertion recreates it. -/
theorem tree_child_list_iff_children :
    TreeInv TreeState.init ∧
    (∀ (st : TreeState) (n : Nat), TreeInv st →
      (child_list st n = none ↔ childrenOf st n = [])) ∧
    (∀ (st : TreeState) (n : Nat) (l : List Nat), TreeInv st →
      child_list st n = some l → l ≠ [] ∧ l = childrenOf st n) ∧
    (∀ (st : TreeState) (id : Nat) (par : Option Nat), TreeInv st →
      lookupEl st.elements id = none → TreeInv (createElement st id par)) ∧
    (∀ (st : TreeState) (id : Nat), TreeInv st →
      TreeInv (removeElement st id)) ∧
    (∀ (st : TreeState) (id : Nat) (newPar : Option Nat), TreeInv st →
      TreeInv (setParent st id newPar)) ∧
    (∀ (st : TreeState) (id p : Nat), TreeInv st → childrenOf st p = [id] →
      child_list (removeElement st id) p = none) ∧
    (∀ (st : TreeState) (id p : Nat) (newPar : Option Nat), TreeInv st →
      childrenOf st p = [id] → newPar ≠ some p →
      child_list (setParent st id newPar) p = none) ∧
    (∀ (st : TreeState) (id p : Nat), TreeInv st →
      lookupEl st.elements id = none → childrenOf st p = [] →
      child_list (createElement st id (some p)) p = some [id]) := by
  refine ⟨?_, ?_, ?_, fun st id par h hf => createElement_inv st id par h hf,
    fun st id h => removeElement_inv st id h,
    fun st id np h => setParent_inv st id np h, ?_, ?_, ?_⟩
  · refine ⟨by simp [TreeState.init], by simp [TreeState.init], ?_⟩
    intro n
    simp [child_list, lookupBr, childrenOf, childrenOfE, TreeState.init]
  · intro st n hinv
    have h := hinv.2.2 n
    by_cases hc : childrenOf st n = [] <;> simp [h, hc]
  · intro st n l hinv hl
    have h := hinv.2.2 n
    by_cases hc : childrenOf st n = []
    · rw [h] at hl
      simp [hc] at hl
    · rw [h] at hl
      simp only [hc, if_false, Option.some.injEq] at hl
      subst hl
      exact ⟨hc, rfl⟩
  · intro st id p hinv hone
    have hmem : id ∈ childrenOf st p := by
      rw [hone]
      exact List.mem_singleton_self id
    have hlk := lookupEl_of_child st id p hinv.1 hmem
    have hinv2 := removeElement_inv st id hinv
    have hch := removeElement_children st id (some p) hlk p
    rw [hone] at hch
    simp at hch
    have h := hinv2.2.2 p
    rw [hch] at h
    simpa using h
  · intro st id p newPar hinv hone hnp
    have hmem : id ∈ childrenOf st p := by
      rw [hone]
      exact List.mem_singleton_self id
    have hlk := lookupEl_of_child st id p hinv.1 hmem
    have hsp : setParent st id newPar =
        createElement (removeElement st id) id newPar := by
      unfold setParent
      rw [hlk]
    have hinv2 := setParent_inv st id newPar hinv
    rw [hsp] at hinv2 ⊢
    have hch1 := removeElement_children st id (some p) hlk p
    rw [hone] at hch1
    simp at hch1
    have hch2 := createElement_children (removeElement st id) id newPar p
    rw [hch1, if_neg hnp] at hch2
    simp at hch2
    have h := hinv2.2.2 p
    rw [hch2] at h
    simpa using h
  · intro st id p hinv hfresh hempty
    have hinv2 := createElement_inv st id (some p) hinv hfresh
    have hch := createElement_children st id (some p) p
    rw [hempty] at hch
    simp at hch
    have h := hinv2.2.2 p
    rw [hch] at h
    simpa using h

/-- Witness state: one root element 1. -/
def tSt1 : TreeState := createElement TreeState.init 1 none

/-- Witness state: element 2 contained in element 1. -/
def tSt2 : TreeState := createElement tSt1 2 (some 1)

theorem tree_child_list_iff_children_witness :
    TreeInv tSt2 ∧
    childrenOf tSt2 1 = [2] ∧
    child_list tSt2 1 = some [2] ∧
    child_list (removeElement tSt2 2) 1 = none ∧
    child_list (setParent tSt2 2 none) 1 = none ∧
    child_list (createElement tSt1 2 (some 1)) 1 = some [2] := by
  have h0 := tree_child_list_iff_children.1
  have h1 := tree_child_list_iff_children.2.2.2.1 TreeState.init 1 none h0 rfl
  have h2 := tree_child_list_iff_children.2.2.2.1 tSt1 2 (some 1) h1 rfl
  refine ⟨h2, rfl, rfl, ?_, ?_, ?_⟩
  · exact tree_child_list_iff_children.2.2.2.2.2.2.1 tSt2 2 1 h2 rfl
  · exact tree_child_list_iff_children.2.2.2.2.2.2.2.1 tSt2 2 1 none h2 rfl
      (by simp)
  · exact tree_child_list_iff_children.2.2.2.2.2.2.2.2 tSt1 2 1 h1 rfl rfl
